import Mathlib

/-!
Verification development for the UK storm-overflow monitoring bot.

The repository tracks sewage-discharge events reported by water-company
ArcGIS feeds (`EventTracker.processFeatures` / `checkAPI`), accumulates
completed events in a duration-gated queue (`EventQueue`), and publishes
batches on a 90-minute scheduler (`PostScheduler.processNextPost`).

The JavaScript source is embedded shallowly:

* JS strings are `List Char` (`Str`); `String.prototype.startsWith` is
  `List.IsPrefix`, `toLowerCase().replace(/\s+/g, lowbar)` is `companyKeyStr`.
* JS `Map` (insertion ordered, `set` keeps the position of an existing key)
  is an association list with `mapLookup` / `mapSet`.
* JS `Set` is a duplicate-free membership list (`setAdd`).
* Timestamps are `Int` milliseconds; `Math.round((e-s)/60000)` is
  `roundDurationMinutes` (floor of x + 1/2, exactly JS `Math.round`).
* The falsy-or idiom `v || d` on a possibly-missing number is `jsOrInt`
  (absent and 0 both fall back).
* Async collaborators (ArcGIS fetch, cycle generator, GitHub push, tweet)
  are oracle inputs: a `FetchOutcome` per company, `Bool` outcomes per
  publishing step.
-/

namespace ShiteWatch

/-- JS strings, embedded as character lists. -/
abbrev Str := List Char

/-- Helper for `squashWs`; the flag records whether the previous character
belonged to a whitespace run already replaced. -/
def squashWsAux : Bool → List Char → List Char
  | _, [] => []
  | prevWs, c :: cs =>
    if c.isWhitespace then
      if prevWs then squashWsAux true cs else '_' :: squashWsAux true cs
    else c :: squashWsAux false cs

/-- Embeds `replace(/\s+/g, underscore)`: each maximal whitespace run becomes
a single underscore character. -/
def squashWs (l : List Char) : List Char := squashWsAux false l

/-- Embeds `waterCompany.toLowerCase().replace(/\s+/g, underscore)` from
`EventTracker.generateEventId` / `processFeatures`. -/
def companyKeyStr (w : Str) : Str := squashWs (w.map Char.toLower)

/-- Embeds the JS falsy-or `v || d` for an optional numeric field:
`null`/`undefined` and `0` fall back to the default. -/
def jsOrInt : Option Int → Int → Int
  | none, d => d
  | some v, d => if v = 0 then d else v

/-- Embeds `Math.round((endTime - startTime) / (1000 * 60))`:
JS `Math.round x = floor (x + 1/2)`, computed exactly on integers. -/
def roundDurationMinutes (startTime endTime : Int) : Int :=
  Int.fdiv (2 * (endTime - startTime) + 60000) 120000

/-- JS `Map.prototype.get` on an insertion-ordered association list. -/
def mapLookup {β : Type} (k : Str) : List (Str × β) → Option β
  | [] => none
  | (k', v) :: m => if k' = k then some v else mapLookup k m

/-- JS `Map.prototype.set`: updates an existing key in place (keeping its
insertion position) or appends a fresh key at the end. -/
def mapSet {β : Type} (k : Str) (v : β) : List (Str × β) → List (Str × β)
  | [] => [(k, v)]
  | (k', v') :: m => if k' = k then (k, v) :: m else (k', v') :: mapSet k v m

/-- JS `Set.prototype.add`. -/
def setAdd (x : Str) (l : List Str) : List Str := if x ∈ l then l else l ++ [x]

/-! ## Threshold queue (`EventQueue`, scheduler/event-queue.js)

The queue stores completed events, so `endTime` and `durationMinutes` are
plain numbers at this interface. -/

/-- Completed event as seen by the queue and the scheduler. -/
structure QEvent where
  id : Str
  waterCompany : Str
  siteId : Str
  endTime : Int
  durationMinutes : Int
deriving DecidableEq, Repr

/-- Stored queue value: `{...event, addedToQueue: new Date().toISOString()}`. -/
structure QueueEntry where
  ev : QEvent
  addedToQueue : Int
deriving DecidableEq, Repr

/-- State of `EventQueue`: `events` map, `postedEvents` set, threshold. -/
structure EventQueue where
  events : List (Str × QueueEntry)
  postedEvents : List Str
  minDurationMinutes : Int
deriving DecidableEq, Repr

/-- The constructor: empty maps, `minDurationMinutes = 600`. -/
def EventQueue.init : EventQueue := ⟨[], [], 600⟩

/-- Embeds `EventQueue.addEvent`: rejects short events, rejects ids already
in `postedEvents`, otherwise `Map.set` (which overwrites an existing entry). -/
def addEvent (q : EventQueue) (e : QEvent) (now : Int) : Bool × EventQueue :=
  if e.durationMinutes < q.minDurationMinutes then (false, q)
  else if e.id ∈ q.postedEvents then (false, q)
  else (true, { q with events := mapSet e.id ⟨e, now⟩ q.events })

/-- Embeds `EventQueue.markAsPosted`: unconditionally adds to the set. -/
def markAsPosted (q : EventQueue) (id : Str) : EventQueue :=
  { q with postedEvents := setAdd id q.postedEvents }

/-- Embeds `EventQueue.cleanup`: drops entries whose `endTime` is older than
seven days; `postedEvents` is untouched. -/
def cleanup (q : EventQueue) (now : Int) : EventQueue :=
  { q with events :=
      q.events.filter (fun p => ¬ p.2.ev.endTime < now - 7 * 24 * 60 * 60 * 1000) }

/-- Embeds the comparator insert of `getPostableEvents`: the JS engine sort is
stable, so the entry being placed goes before the first entry whose `endTime`
is not larger. -/
def qInsert (x : QueueEntry) : List QueueEntry → List QueueEntry
  | [] => [x]
  | y :: ys => if y.ev.endTime ≤ x.ev.endTime then x :: y :: ys else y :: qInsert x ys

/-- Stable sort by `endTime` descending (the `(a, b) => timeB - timeA`
comparator of `getPostableEvents`). -/
def qSort : List QueueEntry → List QueueEntry
  | [] => []
  | x :: xs => qInsert x (qSort xs)

/-- The filter stage of `getPostableEvents`: entries not yet posted, in map
insertion order. -/
def unposted (q : EventQueue) : List QueueEntry :=
  (q.events.map Prod.snd).filter (fun en => en.ev.id ∉ q.postedEvents)

/-- Embeds `EventQueue.getPostableEvents`: filter out posted ids, sort by end
time descending. A pure read: it builds a fresh array and mutates nothing. -/
def getPostableEvents (q : EventQueue) : List QueueEntry :=
  qSort (unposted q)

/-- Queue operations, for statements quantifying over later queue usage. -/
inductive QOp
  | add (e : QEvent) (now : Int)
  | mark (id : Str)
  | clean (now : Int)

/-- Applies one queue operation. -/
def applyOp (q : EventQueue) : QOp → EventQueue
  | .add e now => (addEvent q e now).2
  | .mark id => markAsPosted q id
  | .clean now => cleanup q now

/-- Applies a sequence of queue operations. -/
def applyOps (q : EventQueue) : List QOp → EventQueue
  | [] => q
  | op :: ops => applyOps (applyOp q op) ops

/-! ## Queue lemmas -/

/-- Membership in a JS set after `add`. -/
lemma mem_setAdd {x y : Str} {l : List Str} : x ∈ setAdd y l ↔ x = y ∨ x ∈ l := by
  unfold setAdd
  split
  · constructor
    · exact fun h => Or.inr h
    · rintro (rfl | h) <;> assumption
  · simp [or_comm]

/-- An already-posted id is rejected by `addEvent` with no state change,
whatever its duration. -/
lemma addEvent_of_posted {q : EventQueue} {e : QEvent} {now : Int}
    (h : e.id ∈ q.postedEvents) : addEvent q e now = (false, q) := by
  unfold addEvent
  split
  · rfl
  · simp [h]

/-- The function `addEvent` never touches the posted set. -/
lemma addEvent_postedEvents (q : EventQueue) (e : QEvent) (now : Int) :
    ((addEvent q e now).2).postedEvents = q.postedEvents := by
  unfold addEvent
  split
  · rfl
  · split <;> rfl

/-- No queue operation removes an id from the posted set. -/
lemma posted_mono (q : EventQueue) (op : QOp) {id : Str}
    (h : id ∈ q.postedEvents) : id ∈ (applyOp q op).postedEvents := by
  cases op with
  | add e now => rw [applyOp, addEvent_postedEvents]; exact h
  | mark i => exact mem_setAdd.mpr (Or.inr h)
  | clean now => exact h

/-- Posted ids survive any sequence of queue operations. -/
lemma posted_mono_ops (ops : List QOp) (q : EventQueue) {id : Str}
    (h : id ∈ q.postedEvents) : id ∈ (applyOps q ops).postedEvents := by
  induction ops generalizing q with
  | nil => exact h
  | cons op ops ih => exact ih _ (posted_mono q op h)

/-- A key reported absent by `mapLookup` heads no entry of the map. -/
lemma mapLookup_none {β : Type} {k : Str} {l : List (Str × β)}
    (h : mapLookup k l = none) : ∀ p ∈ l, p.1 ≠ k := by
  induction l with
  | nil => intro p hp; cases hp
  | cons a m ih =>
    intro p hp
    rw [mapLookup] at h
    by_cases hk : a.1 = k
    · rw [if_pos hk] at h; cases h
    · rcases List.mem_cons.mp hp with hpa | hp
      · rw [hpa]; exact hk
      · exact ih (by rwa [if_neg hk] at h) p hp

/-- Entries with a given key, counted. -/
def countKey (k : Str) (l : List (Str × QueueEntry)) : Nat :=
  (l.filter (fun p => p.1 = k)).length

/-- A key absent from the key list is counted zero times. -/
lemma countKey_of_not_mem {k : Str} {l : List (Str × QueueEntry)}
    (h : k ∉ l.map Prod.fst) : countKey k l = 0 := by
  induction l with
  | nil => rfl
  | cons a m ih =>
    simp only [List.map_cons, List.mem_cons, not_or] at h
    have ha : ¬ a.1 = k := fun hh => h.1 hh.symm
    simp only [countKey, List.filter_cons, decide_eq_true_eq, if_neg ha]
    exact ih h.2

/-- On a duplicate-free map, `Map.set` leaves exactly one entry at the key. -/
lemma countKey_mapSet {k : Str} (v : QueueEntry) {l : List (Str × QueueEntry)}
    (h : (l.map Prod.fst).Nodup) : countKey k (mapSet k v l) = 1 := by
  induction l with
  | nil => simp [countKey, mapSet]
  | cons a m ih =>
    rw [List.map_cons, List.nodup_cons] at h
    rw [mapSet]
    by_cases hk : a.1 = k
    · rw [if_pos hk]
      have h0 : countKey k m = 0 := countKey_of_not_mem (by rw [← hk]; exact h.1)
      simp only [countKey] at h0 ⊢
      rw [List.filter_cons_of_pos (by simp), List.length_cons, h0]
    · rw [if_neg hk]
      simp only [countKey, List.filter_cons, decide_eq_true_eq, if_neg hk]
      exact ih h.2

/-- Keys after `Map.set` come from the old map or are the fresh key. -/
lemma mem_keys_mapSet {x k : Str} (v : QueueEntry) {l : List (Str × QueueEntry)}
    (hx : x ∈ (mapSet k v l).map Prod.fst) : x ∈ l.map Prod.fst ∨ x = k := by
  induction l with
  | nil =>
    simp only [mapSet, List.map_cons, List.map_nil] at hx
    rcases List.mem_cons.mp hx with hxa | hx2
    · exact Or.inr hxa
    · cases hx2
  | cons b m ih =>
    rw [mapSet] at hx
    by_cases hb : b.1 = k
    · rw [if_pos hb, List.map_cons] at hx
      rcases List.mem_cons.mp hx with hxa | hx
      · exact Or.inr hxa
      · exact Or.inl (List.mem_cons_of_mem _ hx)
    · rw [if_neg hb, List.map_cons] at hx
      rcases List.mem_cons.mp hx with hxa | hx
      · exact Or.inl (by rw [hxa, List.map_cons]; exact List.mem_cons_self _ _)
      · rcases ih hx with hl | hr
        · exact Or.inl (List.mem_cons_of_mem _ hl)
        · exact Or.inr hr

/-- The key list of `Map.set` stays duplicate-free. -/
lemma nodup_mapSet {k : Str} (v : QueueEntry) {l : List (Str × QueueEntry)}
    (h : (l.map Prod.fst).Nodup) : ((mapSet k v l).map Prod.fst).Nodup := by
  induction l with
  | nil => simp [mapSet]
  | cons a m ih =>
    rw [List.map_cons, List.nodup_cons] at h
    rw [mapSet]
    by_cases hk : a.1 = k
    · rw [if_pos hk, List.map_cons, List.nodup_cons]
      exact ⟨by rw [← hk]; exact h.1, h.2⟩
    · rw [if_neg hk, List.map_cons, List.nodup_cons]
      refine ⟨fun hmem => ?_, ih h.2⟩
      rcases mem_keys_mapSet v hmem with hl | hr
      · exact h.1 hl
      · exact hk hr

/-! ## Sort lemmas for `getPostableEvents` -/

/-- Inserting permutes to consing. -/
lemma qInsert_perm (x : QueueEntry) (l : List QueueEntry) :
    (qInsert x l).Perm (x :: l) := by
  induction l with
  | nil => exact List.Perm.refl _
  | cons y ys ih =>
    rw [qInsert]
    by_cases hc : y.ev.endTime ≤ x.ev.endTime
    · rw [if_pos hc]
    · rw [if_neg hc]
      exact (ih.cons y).trans (List.Perm.swap x y ys)

/-- The stable sort is a permutation of its input. -/
lemma qSort_perm (l : List QueueEntry) : (qSort l).Perm l := by
  induction l with
  | nil => exact List.Perm.refl _
  | cons x xs ih => exact (qInsert_perm x (qSort xs)).trans (ih.cons x)

/-- Inserting into a descending list keeps it descending. -/
lemma pairwise_qInsert (x : QueueEntry) (l : List QueueEntry)
    (h : l.Pairwise (fun a b => b.ev.endTime ≤ a.ev.endTime)) :
    (qInsert x l).Pairwise (fun a b => b.ev.endTime ≤ a.ev.endTime) := by
  induction l with
  | nil => exact List.pairwise_singleton _ _
  | cons y ys ih =>
    rw [qInsert]
    rcases List.pairwise_cons.mp h with ⟨hy, hys⟩
    by_cases hc : y.ev.endTime ≤ x.ev.endTime
    · rw [if_pos hc]
      refine List.pairwise_cons.mpr ⟨?_, h⟩
      intro z hz
      rcases List.mem_cons.mp hz with rfl | hz
      · exact hc
      · exact le_trans (hy z hz) hc
    · rw [if_neg hc]
      refine List.pairwise_cons.mpr ⟨?_, ih hys⟩
      intro z hz
      rcases List.mem_cons.mp ((qInsert_perm x ys).mem_iff.mp hz) with rfl | hz
      · exact le_of_not_le hc
      · exact hy z hz

/-- The output of the stable sort is descending in `endTime`. -/
lemma pairwise_qSort (l : List QueueEntry) :
    (qSort l).Pairwise (fun a b => b.ev.endTime ≤ a.ev.endTime) := by
  induction l with
  | nil => exact List.Pairwise.nil
  | cons x xs ih => exact pairwise_qInsert x (qSort xs) ih

/-- Entries with the inserted key move to the front of their tie group. -/
lemma filter_qInsert_pos {t : Int} (x : QueueEntry) (l : List QueueEntry)
    (hx : x.ev.endTime = t) :
    (qInsert x l).filter (fun en => en.ev.endTime = t) =
      x :: l.filter (fun en => en.ev.endTime = t) := by
  induction l with
  | nil => simp [qInsert, hx]
  | cons y ys ih =>
    rw [qInsert]
    by_cases hc : y.ev.endTime ≤ x.ev.endTime
    · rw [if_pos hc, List.filter_cons_of_pos (by simp [hx])]
    · have hy : ¬ y.ev.endTime = t := by
        intro hyt
        exact hc (le_of_eq (hyt.trans hx.symm))
      rw [if_neg hc, List.filter_cons_of_neg (by simp [hy]),
        List.filter_cons_of_neg (by simp [hy])]
      exact ih

/-- Entries with a different end time are unaffected by the insertion. -/
lemma filter_qInsert_neg {t : Int} (x : QueueEntry) (l : List QueueEntry)
    (hx : ¬ x.ev.endTime = t) :
    (qInsert x l).filter (fun en => en.ev.endTime = t) =
      l.filter (fun en => en.ev.endTime = t) := by
  induction l with
  | nil => simp [qInsert, hx]
  | cons y ys ih =>
    rw [qInsert]
    by_cases hc : y.ev.endTime ≤ x.ev.endTime
    · rw [if_pos hc, List.filter_cons_of_neg (by simp [hx])]
    · rw [if_neg hc]
      by_cases hy : y.ev.endTime = t
      · rw [List.filter_cons_of_pos (by simp [hy]),
          List.filter_cons_of_pos (by simp [hy]), ih]
      · rw [List.filter_cons_of_neg (by simp [hy]),
          List.filter_cons_of_neg (by simp [hy]), ih]

/-- Stability: within each tie group the sort preserves input order. -/
lemma filter_qSort (t : Int) (l : List QueueEntry) :
    (qSort l).filter (fun en => en.ev.endTime = t) =
      l.filter (fun en => en.ev.endTime = t) := by
  induction l with
  | nil => rfl
  | cons x xs ih =>
    rw [qSort]
    by_cases hx : x.ev.endTime = t
    · rw [filter_qInsert_pos x (qSort xs) hx, ih,
        List.filter_cons_of_pos (by simp [hx])]
    · rw [filter_qInsert_neg x (qSort xs) hx, ih,
        List.filter_cons_of_neg (by simp [hx])]

/-! ## Sample values for witnesses and counterexamples -/

/-- Sample completed event: id `a`, ended at 2000, duration 700 minutes. -/
def qev1 : QEvent := ⟨['a'], ['w'], ['s'], 2000, 700⟩

/-- Sample completed event: id `b`, ended at 1000, duration 650 minutes. -/
def qev2 : QEvent := ⟨['b'], ['w'], ['t'], 1000, 650⟩

/-! ## Claims about the threshold queue -/

/-- C1 (amended): `addEvent` returns `false` without mutation exactly when the
duration is below `minDurationMinutes` or the id is in `postedEvents`; the
presence of a queue entry for the id is not checked, so a second add of an
unposted id returns `true` again and overwrites, leaving exactly one entry. -/
theorem claim_c1 (q : EventQueue) (e : QEvent) (now now' : Int) :
    ((e.durationMinutes < q.minDurationMinutes ∨ e.id ∈ q.postedEvents) →
      addEvent q e now = (false, q)) ∧
    (q.minDurationMinutes ≤ e.durationMinutes → e.id ∉ q.postedEvents →
      (q.events.map Prod.fst).Nodup →
      (addEvent q e now).1 = true ∧
      (addEvent (addEvent q e now).2 e now').1 = true ∧
      countKey e.id ((addEvent (addEvent q e now).2 e now').2).events = 1) := by
  constructor
  · intro h
    rcases h with hd | hp
    · unfold addEvent
      rw [if_pos hd]
    · exact addEvent_of_posted hp
  · intro hd hp hnd
    have hnotlt : ¬ e.durationMinutes < q.minDurationMinutes := not_lt.mpr hd
    have h1 : addEvent q e now =
        (true, { q with events := mapSet e.id ⟨e, now⟩ q.events }) := by
      unfold addEvent
      rw [if_neg hnotlt, if_neg hp]
    have h2 : addEvent { q with events := mapSet e.id ⟨e, now⟩ q.events } e now' =
        (true, { q with events := mapSet e.id ⟨e, now'⟩ (mapSet e.id ⟨e, now⟩ q.events) }) := by
      unfold addEvent
      rw [if_neg hnotlt, if_neg hp]
    rw [h1, h2]
    exact ⟨rfl, rfl, countKey_mapSet _ (nodup_mapSet _ hnd)⟩

/-- C1 witness: a 700-minute event is accepted twice and ends with a single
queue entry. -/
theorem claim_c1_witness :
    (addEvent EventQueue.init qev1 1).1 = true ∧
    (addEvent (addEvent EventQueue.init qev1 1).2 qev1 2).1 = true ∧
    countKey qev1.id ((addEvent (addEvent EventQueue.init qev1 1).2 qev1 2).2).events = 1 :=
  (claim_c1 EventQueue.init qev1 1 2).2 (by decide) (by decide) (by decide)

/-- C1 counterexample: the second `addEvent` with the same id returns `true`,
not `false`, and mutates the queue (the stored `addedToQueue` changes). -/
theorem claim_c1_counterexample :
    (addEvent EventQueue.init qev1 1).1 = true ∧
    (addEvent (addEvent EventQueue.init qev1 1).2 qev1 2).1 = true ∧
    (addEvent (addEvent EventQueue.init qev1 1).2 qev1 2).2 ≠
      (addEvent EventQueue.init qev1 1).2 := by
  decide

/-- C4: `getPostableEvents` is a pure read returning exactly the non-posted
entries, sorted by `endTime` descending, with ties kept in insertion order. -/
theorem claim_c4 (q : EventQueue) :
    (getPostableEvents q).Pairwise (fun a b => b.ev.endTime ≤ a.ev.endTime) ∧
    (getPostableEvents q).Perm (unposted q) ∧
    ∀ t : Int, (getPostableEvents q).filter (fun en => en.ev.endTime = t) =
      (unposted q).filter (fun en => en.ev.endTime = t) :=
  ⟨pairwise_qSort (unposted q), qSort_perm (unposted q),
    fun t => filter_qSort t (unposted q)⟩

/-- C7 (amended): `markAsPosted` on an id with no queue entry returns normally
and leaves the entry map and `getPostableEvents` unchanged, but it does change
later behaviour: a subsequent `addEvent` with that id returns `false`. -/
theorem claim_c7 (q : EventQueue) (id : Str) (e : QEvent) (now : Int)
    (hkeys : ∀ p ∈ q.events, p.2.ev.id = p.1)
    (habs : mapLookup id q.events = none) :
    (markAsPosted q id).events = q.events ∧
    getPostableEvents (markAsPosted q id) = getPostableEvents q ∧
    (e.id = id → (addEvent (markAsPosted q id) e now).1 = false) := by
  refine ⟨rfl, ?_, ?_⟩
  · unfold getPostableEvents
    congr 1
    unfold unposted markAsPosted
    apply List.filter_congr
    intro en hen
    rcases List.mem_map.mp hen with ⟨p, hp, hpe⟩
    have h1 : en.ev.id ≠ id := by
      rw [← hpe, hkeys p hp]
      exact mapLookup_none habs p hp
    exact decide_eq_decide.mpr (not_congr (by rw [mem_setAdd]; exact or_iff_right h1))
  · intro he
    rw [addEvent_of_posted (by rw [he]; exact mem_setAdd.mpr (Or.inl rfl))]

/-- C7 witness: marking an absent id on the empty queue leaves the map and the
postable list unchanged, and the later add of that id is refused. -/
theorem claim_c7_witness :
    (markAsPosted EventQueue.init qev1.id).events = EventQueue.init.events ∧
    (addEvent (markAsPosted EventQueue.init qev1.id) qev1 5).1 = false :=
  ⟨(claim_c7 EventQueue.init qev1.id qev1 5 (by decide) rfl).1,
   (claim_c7 EventQueue.init qev1.id qev1 5 (by decide) rfl).2.2 rfl⟩

/-- C7 counterexample: on the empty queue, `addEvent qev1` returns `true`, but
after `markAsPosted` of the absent id the same call returns `false` — so the
result of a subsequent `addEvent` for that id is not unchanged. -/
theorem claim_c7_counterexample :
    (addEvent EventQueue.init qev1 5).1 = true ∧
    (addEvent (markAsPosted EventQueue.init qev1.id) qev1 5).1 = false := by
  decide

/-- C9: after `markAsPosted id`, any later `addEvent` whose event has that id
returns `false` and leaves the queue unchanged, surviving any sequence of
adds, marks and cleanups (cleanup never prunes the posted set). -/
theorem claim_c9 (q : EventQueue) (id : Str) (ops : List QOp) (e : QEvent)
    (now : Int) (h : e.id = id) :
    addEvent (applyOps (markAsPosted q id) ops) e now =
      (false, applyOps (markAsPosted q id) ops) := by
  apply addEvent_of_posted
  rw [h]
  exact posted_mono_ops ops _ (mem_setAdd.mpr (Or.inl rfl))

/-- C9 witness: after marking id `a` and then running a cleanup and another
add, adding an event with id `a` is still refused without mutation. -/
theorem claim_c9_witness :
    addEvent (applyOps (markAsPosted EventQueue.init qev1.id)
        [QOp.clean 999999999999, QOp.add qev2 3]) qev1 7 =
      (false, applyOps (markAsPosted EventQueue.init qev1.id)
        [QOp.clean 999999999999, QOp.add qev2 3]) :=
  claim_c9 EventQueue.init qev1.id [QOp.clean 999999999999, QOp.add qev2 3] qev1 7 rfl

/-! ## Event tracker (`EventTracker`, monitor/event-tracker.js)

`parseFeature` only projects attribute fields, so a feature is embedded
directly as its parsed record. `Status` is `0` not discharging, `1`
discharging, `-1` offline. -/

/-- Lifecycle status of a tracked event. -/
inductive EvStatus
  | active
  | completed
deriving DecidableEq, Repr

/-- Tracked event record, as built in `processFeatures`. -/
structure TEvent where
  id : Str
  waterCompany : Str
  siteId : Str
  siteName : Option Str
  latitude : Option Int
  longitude : Option Int
  startTime : Int
  endTime : Option Int
  durationMinutes : Option Int
  status : EvStatus
  receivingWatercourse : Option Str
  rawData : Str
deriving DecidableEq, Repr

/-- Parsed ArcGIS feature (`parseFeature` output): an empty `siteId` embeds a
missing/falsy `attrs.Id`, and `statusStart = some 0` is also falsy in JS. -/
structure Feature where
  siteId : Str
  siteName : Option Str
  status : Int
  statusStart : Option Int
  latestEventStart : Option Int
  latestEventEnd : Option Int
  receivingWatercourse : Option Str
  latitude : Option Int
  longitude : Option Int
  rawData : Str
deriving DecidableEq, Repr

/-- Embeds the template literal `companyKey:siteId`. -/
def eventKey (ck sid : Str) : Str := ck ++ ':' :: sid

/-- Embeds the event object literal created on `NEW EVENT DETECTED`:
`startTime = parsed.statusStart || now`. -/
def newEvent (w ck : Str) (now : Int) (f : Feature) : TEvent :=
  { id := eventKey ck f.siteId
    waterCompany := w
    siteId := f.siteId
    siteName := f.siteName
    latitude := f.latitude
    longitude := f.longitude
    startTime := jsOrInt f.statusStart now
    endTime := none
    durationMinutes := none
    status := .active
    receivingWatercourse := f.receivingWatercourse
    rawData := f.rawData }

/-- Embeds the mutable-metadata update applied to an existing active event:
only `rawData` and `receivingWatercourse` are assigned. -/
def metaUpdate (f : Feature) (e : TEvent) : TEvent :=
  { e with rawData := f.rawData, receivingWatercourse := f.receivingWatercourse }

/-- Embeds one iteration of the feature loop of `processFeatures`: skip a
falsy site id, and for a discharging site record it as seen and create or
metadata-update the active event. -/
def step1 (w ck : Str) (now : Int) (acc : List (Str × TEvent) × List Str)
    (f : Feature) : List (Str × TEvent) × List Str :=
  if f.siteId = [] then acc
  else if f.status = 1 then
    match mapLookup (eventKey ck f.siteId) acc.1 with
    | none =>
      (mapSet (eventKey ck f.siteId) (newEvent w ck now f) acc.1,
        setAdd f.siteId acc.2)
    | some e =>
      (mapSet (eventKey ck f.siteId) (metaUpdate f e) acc.1,
        setAdd f.siteId acc.2)
  else acc

/-- The feature loop of `processFeatures` over the whole snapshot. -/
def phase1 (w ck : Str) (now : Int) (fs : List Feature)
    (acc : List (Str × TEvent) × List Str) : List (Str × TEvent) × List Str :=
  fs.foldl (step1 w ck now) acc

/-- Embeds the completion assignment of `processFeatures`: `endTime = now`,
`durationMinutes = Math.round((endTime - startTime)/60000)`, no clamping. -/
def completeEvent (now : Int) (e : TEvent) : TEvent :=
  { e with endTime := some now
           durationMinutes := some (roundDurationMinutes e.startTime now)
           status := .completed }

/-- Embeds the end-detection loop of `processFeatures`: every active entry of
this company whose site was not seen discharging is completed and removed. -/
def phase2 (ck : Str) (now : Int) (act : List Str) :
    List (Str × TEvent) → List (Str × TEvent) × List TEvent
  | [] => ([], [])
  | (k, e) :: m =>
    let r := phase2 ck now act m
    if (ck ++ [':']) <+: k ∧ e.siteId ∉ act then (r.1, completeEvent now e :: r.2)
    else ((k, e) :: r.1, r.2)

/-- Embeds `EventTracker.processFeatures`: returns the updated active map and
the list of events completed in this call (each of which is handed to
`eventQueue.addEvent` by `generateDischargeSummary`). -/
def processFeatures (w : Str) (fs : List Feature) (now : Int)
    (m : List (Str × TEvent)) : List (Str × TEvent) × List TEvent :=
  let p := phase1 w (companyKeyStr w) now fs (m, [])
  phase2 (companyKeyStr w) now p.2 p.1

/-- Outcome of one `apiClient.getAllOverflows` call: a thrown error or a
feature list. -/
inductive FetchOutcome
  | err
  | ok (features : List Feature)
deriving DecidableEq, Repr

/-- Embeds the company loop of `EventTracker.checkAPI`: a throwing fetch is
caught and skipped, and `processFeatures` runs only when at least one feature
came back. Each tuple carries the company name, the `Date.now()` of its
`processFeatures` call, and the fetch outcome. -/
def checkAPI : List (Str × Int × FetchOutcome) → List (Str × TEvent) →
    List (Str × TEvent) × List TEvent
  | [], m => (m, [])
  | (w, now, o) :: rest, m =>
    let step : List (Str × TEvent) × List TEvent :=
      match o with
      | .err => (m, [])
      | .ok fs => if fs = [] then (m, []) else processFeatures w fs now m
    let r := checkAPI rest step.1
    (r.1, step.2 ++ r.2)

/-! ## Tracker lemmas and claims C2, C3 -/

/-- Looking up the key just set returns the new value. -/
lemma mapLookup_mapSet_self {β : Type} (k : Str) (v : β) (l : List (Str × β)) :
    mapLookup k (mapSet k v l) = some v := by
  induction l with
  | nil => simp [mapSet, mapLookup]
  | cons a m ih =>
    rw [mapSet]
    by_cases hk : a.1 = k
    · rw [if_pos hk, mapLookup, if_pos rfl]
    · rw [if_neg hk, mapLookup, if_neg hk]
      exact ih

/-- Every event completed by the end-detection loop carries `endTime = now`
and the unclamped rounded duration computed from its own `startTime`. -/
lemma phase2_completed_fields (ck : Str) (now : Int) (act : List Str)
    (m : List (Str × TEvent)) :
    ∀ e ∈ (phase2 ck now act m).2,
      e.durationMinutes = some (roundDurationMinutes e.startTime now) ∧
      e.endTime = some now ∧ e.status = .completed := by
  induction m with
  | nil => intro e he; cases he
  | cons p m ih =>
    obtain ⟨k, e0⟩ := p
    intro e he
    rw [phase2] at he
    by_cases hc : (ck ++ [':']) <+: k ∧ e0.siteId ∉ act
    · rw [if_pos hc] at he
      rcases List.mem_cons.mp he with rfl | he
      · exact ⟨rfl, rfl, rfl⟩
      · exact ih e he
    · rw [if_neg hc] at he
      exact ih e he

/-- C2 (amended): every event the tracker transitions to Completed gets
`endTime = now` and `durationMinutes = Math.round((endTime - startTime)/60000)`
exactly; the value is not clamped, so a start time later than the completion
tick is recorded as a negative duration. -/
theorem claim_c2 (w : Str) (fs : List Feature) (now : Int)
    (m : List (Str × TEvent)) :
    ∀ e ∈ (processFeatures w fs now m).2,
      e.durationMinutes = some (roundDurationMinutes e.startTime now) ∧
      e.endTime = some now ∧ e.status = .completed := by
  intro e he
  exact phase2_completed_fields _ now _ _ e he

/-- Sample active event of company key `x` at site `a`, started at epoch 0. -/
def tev0 : TEvent :=
  ⟨['x', ':', 'a'], ['x'], ['a'], none, none, none, 0, none, none, .active, none, []⟩

/-- Sample discharging feature whose `StatusStart` lies in the future of the
ingestion instant used in the examples. -/
def feat1 : Feature := ⟨['a'], none, 1, some 600000000, none, none, none, none, none, []⟩

/-- The same site reporting status 0 (not discharging). -/
def feat2 : Feature := ⟨['a'], none, 0, some 600000000, none, none, none, none, none, []⟩

/-- C2 witness: completing the sample event at t = 120000 ms records exactly
the rounded two-minute duration. -/
theorem claim_c2_witness :
    (completeEvent 120000 tev0).durationMinutes =
      some (roundDurationMinutes (completeEvent 120000 tev0).startTime 120000) ∧
    (completeEvent 120000 tev0).endTime = some 120000 ∧
    (completeEvent 120000 tev0).status = .completed :=
  claim_c2 ['x'] [] 120000 [(['x', ':', 'a'], tev0)] (completeEvent 120000 tev0)
    (by decide)

/-- C2 counterexample: a discharging observation with a future `StatusStart`
creates an event whose completion at t = 0 records `durationMinutes = -10000`;
the code clamps nothing, refuting the never-negative clause. -/
theorem claim_c2_counterexample :
    ((processFeatures ['x'] [feat2] 0
        (processFeatures ['x'] [feat1] 0 []).1).2.map TEvent.durationMinutes) =
      [some (-10000)] ∧ (-10000 : Int) < 0 := by
  decide

/-- C3 (amended): a discharging observation for a site with no active entry
creates an event whose `startTime` is `statusStart` whenever that field is
present and non-zero — even a future or arbitrarily old timestamp — and falls
back to `now` only when the field is absent or zero (JS falsy). -/
theorem claim_c3 (w : Str) (now : Int) (m : List (Str × TEvent))
    (act : List Str) (f : Feature)
    (hdis : f.status = 1) (hsid : ¬ f.siteId = [])
    (habs : mapLookup (eventKey (companyKeyStr w) f.siteId) m = none) :
    mapLookup (eventKey (companyKeyStr w) f.siteId)
        (step1 w (companyKeyStr w) now (m, act) f).1 =
      some (newEvent w (companyKeyStr w) now f) ∧
    ((f.statusStart = none ∨ f.statusStart = some 0) →
      (newEvent w (companyKeyStr w) now f).startTime = now) ∧
    (∀ t : Int, f.statusStart = some t → ¬ t = 0 →
      (newEvent w (companyKeyStr w) now f).startTime = t) := by
  refine ⟨?_, ?_, ?_⟩
  · unfold step1
    rw [if_neg hsid, if_pos hdis]
    have hm : mapLookup (eventKey (companyKeyStr w) f.siteId) (m, act).1 = none := habs
    rw [hm]
    exact mapLookup_mapSet_self _ _ _
  · intro hss
    show jsOrInt f.statusStart now = now
    rcases hss with hn | h0
    · rw [hn]; rfl
    · rw [h0]
      show (if (0 : Int) = 0 then now else (0 : Int)) = now
      rw [if_pos rfl]
  · intro t ht ht0
    show jsOrInt f.statusStart now = t
    rw [ht]
    show (if t = 0 then now else t) = t
    rw [if_neg ht0]

/-- C3 witness: the sample feature has a present non-zero `StatusStart`, so
the created event takes it as `startTime`. -/
theorem claim_c3_witness :
    mapLookup (eventKey (companyKeyStr ['x']) feat1.siteId)
        (step1 ['x'] (companyKeyStr ['x']) 0 ([], []) feat1).1 =
      some (newEvent ['x'] (companyKeyStr ['x']) 0 feat1) ∧
    (newEvent ['x'] (companyKeyStr ['x']) 0 feat1).startTime = 600000000 :=
  ⟨(claim_c3 ['x'] 0 [] [] feat1 rfl (by decide) rfl).1,
   (claim_c3 ['x'] 0 [] [] feat1 rfl (by decide) rfl).2.2 600000000 rfl (by decide)⟩

/-- C3 counterexample: with `now = 0` and the clearly invalid future
`StatusStart = 600000000`, the created event keeps the future timestamp
instead of falling back to `now`, refuting the validity-check clause. -/
theorem claim_c3_counterexample :
    ((step1 ['x'] (companyKeyStr ['x']) 0 ([], []) feat1).1.map
        (fun p => p.2.startTime)) = [600000000] ∧ (0 : Int) < 600000000 := by
  decide

/-! ## Lemmas towards C6 (idempotent snapshot replay) -/

/-- Lookup after `Map.set` at any key. -/
lemma mapLookup_mapSet {β : Type} (k k' : Str) (v : β) (l : List (Str × β)) :
    mapLookup k (mapSet k' v l) = if k' = k then some v else mapLookup k l := by
  induction l with
  | nil => rfl
  | cons a m ih =>
    rw [mapSet]
    by_cases ha : a.1 = k'
    · rw [if_pos ha, mapLookup]
      by_cases h : k' = k
      · rw [if_pos h, if_pos h]
      · rw [if_neg h, if_neg h, mapLookup, if_neg (by rw [ha]; exact h)]
    · rw [if_neg ha, mapLookup]
      by_cases hak : a.1 = k
      · have h : ¬ k' = k := fun hh => ha (hak.trans hh.symm)
        rw [if_pos hak, if_neg h, mapLookup, if_pos hak]
      · rw [if_neg hak, ih, mapLookup, if_neg hak]

/-- A successful lookup certifies membership of the located pair. -/
lemma mapLookup_some_mem {β : Type} {k : Str} {v : β} {l : List (Str × β)}
    (h : mapLookup k l = some v) : (k, v) ∈ l := by
  induction l with
  | nil => cases h
  | cons a m ih =>
    rw [mapLookup] at h
    by_cases ha : a.1 = k
    · rw [if_pos ha] at h
      have hv : v = a.2 := (Option.some_inj.mp h).symm
      have hkv : (k, v) = a := by rw [← ha, hv]
      rw [hkv]
      exact List.mem_cons_self _ _
    · rw [if_neg ha] at h
      exact List.mem_cons_of_mem _ (ih h)

/-- Lookup succeeds exactly on the key list. -/
lemma mapLookup_isSome_iff {β : Type} {k : Str} {l : List (Str × β)} :
    (mapLookup k l).isSome = true ↔ k ∈ l.map Prod.fst := by
  induction l with
  | nil =>
    constructor
    · intro h
      rw [mapLookup] at h
      cases h
    · intro h
      cases h
  | cons a m ih =>
    rw [mapLookup, List.map_cons]
    by_cases ha : a.1 = k
    · rw [if_pos ha]
      constructor
      · intro _
        exact List.mem_cons.mpr (Or.inl ha.symm)
      · intro _
        rfl
    · rw [if_neg ha]
      constructor
      · intro h
        exact List.mem_cons_of_mem _ (ih.mp h)
      · intro h
        rcases List.mem_cons.mp h with h | h
        · exact absurd h.symm ha
        · exact ih.mpr h

/-- The composite key decomposes as prefix and site suffix. -/
lemma eventKey_pre (ck sid : Str) : (ck ++ [':']) <+: eventKey ck sid :=
  ⟨sid, by rw [eventKey, List.append_assoc]; rfl⟩

/-- The composite key determines the site id. -/
lemma eventKey_inj {ck s1 s2 : Str} (h : eventKey ck s1 = eventKey ck s2) :
    s1 = s2 := by
  unfold eventKey at h
  exact List.tail_eq_of_cons_eq (List.append_cancel_left h)

/-- The key/siteId/startTime projection used to state C6. -/
def proj (m : List (Str × TEvent)) : List (Str × Str × Int) :=
  m.map (fun p => (p.1, p.2.siteId, p.2.startTime))

/-- The seen-site accumulator of `step1` depends only on the feature. -/
lemma step1_act (w ck : Str) (now : Int) (f : Feature)
    (m : List (Str × TEvent)) (a : List Str) :
    (step1 w ck now (m, a) f).2 =
      if f.siteId = [] then a
      else if f.status = 1 then setAdd f.siteId a else a := by
  unfold step1
  by_cases h1 : f.siteId = []
  · rw [if_pos h1, if_pos h1]
  · rw [if_neg h1, if_neg h1]
    by_cases h2 : f.status = 1
    · rw [if_pos h2, if_pos h2]
      cases hm : mapLookup (eventKey ck f.siteId) (m, a).1 with
      | none => rfl
      | some e => rfl
    · rw [if_neg h2, if_neg h2]

/-- The seen-site set of the feature loop is independent of the map and the
timestamp. -/
lemma phase1_act_eq (w ck : Str) (now now' : Int) (fs : List Feature)
    (m m' : List (Str × TEvent)) (a : List Str) :
    (phase1 w ck now fs (m, a)).2 = (phase1 w ck now' fs (m', a)).2 := by
  induction fs generalizing m m' a with
  | nil => rfl
  | cons f fs ih =>
    show (phase1 w ck now fs (step1 w ck now (m, a) f)).2 =
      (phase1 w ck now' fs (step1 w ck now' (m', a) f)).2
    have e1 := step1_act w ck now f m a
    have e2 := step1_act w ck now' f m' a
    calc (phase1 w ck now fs (step1 w ck now (m, a) f)).2
        = (phase1 w ck now fs ((step1 w ck now (m, a) f).1,
            (step1 w ck now (m, a) f).2)).2 := rfl
      _ = (phase1 w ck now' fs ((step1 w ck now' (m', a) f).1,
            (step1 w ck now' (m', a) f).2)).2 := by rw [e1, e2]; exact ih _ _ _
      _ = (phase1 w ck now' fs (step1 w ck now' (m', a) f)).2 := rfl

/-- The seen-site set only grows along the feature loop. -/
lemma step1_act_mono {x : Str} (w ck : Str) (now : Int) (f : Feature)
    (m : List (Str × TEvent)) (a : List Str) (h : x ∈ a) :
    x ∈ (step1 w ck now (m, a) f).2 := by
  rw [step1_act]
  by_cases h1 : f.siteId = []
  · rw [if_pos h1]; exact h
  · rw [if_neg h1]
    by_cases h2 : f.status = 1
    · rw [if_pos h2]; exact mem_setAdd.mpr (Or.inr h)
    · rw [if_neg h2]; exact h

/-- Seen sites persist to the end of the feature loop. -/
lemma phase1_act_mono {x : Str} (w ck : Str) (now : Int) (fs : List Feature)
    (m : List (Str × TEvent)) (a : List Str) (h : x ∈ a) :
    x ∈ (phase1 w ck now fs (m, a)).2 := by
  induction fs generalizing m a with
  | nil => exact h
  | cons f fs ih =>
    show x ∈ (phase1 w ck now fs (step1 w ck now (m, a) f)).2
    have : step1 w ck now (m, a) f =
        ((step1 w ck now (m, a) f).1, (step1 w ck now (m, a) f).2) := rfl
    rw [this]
    exact ih _ _ (step1_act_mono w ck now f m a h)

/-- Every discharging feature with a site id ends up in the seen-site set. -/
lemma phase1_act_mem {f : Feature} (w ck : Str) (now : Int) {fs : List Feature}
    (m : List (Str × TEvent)) (a : List Str) (hf : f ∈ fs)
    (hsid : ¬ f.siteId = []) (hdis : f.status = 1) :
    f.siteId ∈ (phase1 w ck now fs (m, a)).2 := by
  induction fs generalizing m a with
  | nil => cases hf
  | cons g gs ih =>
    show f.siteId ∈ (phase1 w ck now gs (step1 w ck now (m, a) g)).2
    rcases List.mem_cons.mp hf with rfl | hf
    · have : step1 w ck now (m, a) f =
          ((step1 w ck now (m, a) f).1, (step1 w ck now (m, a) f).2) := rfl
      rw [this]
      apply phase1_act_mono
      rw [step1_act, if_neg hsid, if_pos hdis]
      exact mem_setAdd.mpr (Or.inl rfl)
    · have : step1 w ck now (m, a) g =
          ((step1 w ck now (m, a) g).1, (step1 w ck now (m, a) g).2) := rfl
      rw [this]
      exact ih _ _ hf

/-- The projection determines the key list. -/
lemma proj_keys (m : List (Str × TEvent)) :
    (proj m).map (fun x => x.1) = m.map Prod.fst := by
  unfold proj
  rw [List.map_map]
  rfl

/-- Updating an entry in place without touching siteId or startTime preserves
the projection. -/
lemma proj_mapSet_of_lookup {k : Str} {v e : TEvent} {l : List (Str × TEvent)}
    (hl : mapLookup k l = some e) (hs : v.siteId = e.siteId)
    (hst : v.startTime = e.startTime) : proj (mapSet k v l) = proj l := by
  induction l with
  | nil => cases hl
  | cons a m ih =>
    rw [mapLookup] at hl
    rw [mapSet]
    by_cases ha : a.1 = k
    · rw [if_pos ha] at hl
      rw [if_pos ha]
      have he : a.2 = e := Option.some_inj.mp hl
      unfold proj
      rw [List.map_cons, List.map_cons]
      congr 1
      show (k, v.siteId, v.startTime) = (a.1, a.2.siteId, a.2.startTime)
      rw [ha, hs, hst, he]
    · rw [if_neg ha] at hl
      rw [if_neg ha]
      unfold proj at ih ⊢
      rw [List.map_cons, List.map_cons, ih hl]

/-- One loop step keeps the projection when the discharging key is present. -/
lemma step1_proj (w ck : Str) (now : Int) (f : Feature)
    (m : List (Str × TEvent)) (a : List Str)
    (h : ¬ f.siteId = [] → f.status = 1 →
      (mapLookup (eventKey ck f.siteId) m).isSome = true) :
    proj (step1 w ck now (m, a) f).1 = proj m := by
  unfold step1
  by_cases h1 : f.siteId = []
  · rw [if_pos h1]
  · rw [if_neg h1]
    by_cases h2 : f.status = 1
    · rw [if_pos h2]
      cases hm : mapLookup (eventKey ck f.siteId) (m, a).1 with
      | none =>
        have hm' : mapLookup (eventKey ck f.siteId) m = none := hm
        have := h h1 h2
        rw [hm'] at this
        cases this
      | some e =>
        have hm' : mapLookup (eventKey ck f.siteId) m = some e := hm
        exact proj_mapSet_of_lookup hm' rfl rfl
    · rw [if_neg h2]

/-- Setting any key cannot make another lookup fail. -/
lemma isSome_mapSet {β : Type} {k : Str} (k' : Str) (v : β) {m : List (Str × β)}
    (h : (mapLookup k m).isSome = true) :
    (mapLookup k (mapSet k' v m)).isSome = true := by
  rw [mapLookup_mapSet]
  by_cases he : k' = k
  · rw [if_pos he]; rfl
  · rw [if_neg he]; exact h

/-- One loop step keeps every present key present. -/
lemma step1_isSome_mono {k : Str} (w ck : Str) (now : Int) (f : Feature)
    (m : List (Str × TEvent)) (a : List Str)
    (h : (mapLookup k m).isSome = true) :
    (mapLookup k (step1 w ck now (m, a) f).1).isSome = true := by
  unfold step1
  by_cases h1 : f.siteId = []
  · rw [if_pos h1]; exact h
  · rw [if_neg h1]
    by_cases h2 : f.status = 1
    · rw [if_pos h2]
      cases hm : mapLookup (eventKey ck f.siteId) (m, a).1 with
      | none => exact isSome_mapSet _ _ h
      | some e => exact isSome_mapSet _ _ h
    · rw [if_neg h2]; exact h

/-- The whole loop keeps every present key present. -/
lemma phase1_isSome_mono {k : Str} (w ck : Str) (now : Int) (fs : List Feature) :
    ∀ (m : List (Str × TEvent)) (a : List Str),
      (mapLookup k m).isSome = true →
      (mapLookup k (phase1 w ck now fs (m, a)).1).isSome = true := by
  induction fs with
  | nil => intro m a h; exact h
  | cons f fs ih =>
    intro m a h
    show (mapLookup k (phase1 w ck now fs (step1 w ck now (m, a) f)).1).isSome = true
    have hp : step1 w ck now (m, a) f =
        ((step1 w ck now (m, a) f).1, (step1 w ck now (m, a) f).2) := rfl
    rw [hp]
    exact ih _ _ (step1_isSome_mono w ck now f m a h)

/-- After the feature loop, every discharging feature's key is present. -/
lemma phase1_mem_after {f : Feature} (w ck : Str) (now : Int) {fs : List Feature}
    (m : List (Str × TEvent)) (a : List Str) (hf : f ∈ fs)
    (hsid : ¬ f.siteId = []) (hdis : f.status = 1) :
    (mapLookup (eventKey ck f.siteId) (phase1 w ck now fs (m, a)).1).isSome = true := by
  induction fs generalizing m a with
  | nil => cases hf
  | cons g gs ih =>
    show (mapLookup _ (phase1 w ck now gs (step1 w ck now (m, a) g)).1).isSome = true
    have hp : step1 w ck now (m, a) g =
        ((step1 w ck now (m, a) g).1, (step1 w ck now (m, a) g).2) := rfl
    rcases List.mem_cons.mp hf with rfl | hf
    · rw [hp]
      apply phase1_isSome_mono
      unfold step1
      rw [if_neg hsid, if_pos hdis]
      cases hm : mapLookup (eventKey ck f.siteId) (m, a).1 with
      | none =>
        show (mapLookup _ (mapSet (eventKey ck f.siteId) (newEvent w ck now f) m)).isSome = true
        rw [mapLookup_mapSet_self]
        rfl
      | some e =>
        show (mapLookup _ (mapSet (eventKey ck f.siteId) _ m)).isSome = true
        rw [mapLookup_mapSet_self]
        rfl
    · rw [hp]
      exact ih _ _ hf

/-- The loop keeps the projection whenever every discharging key is already in
the map. -/
lemma phase1_proj (w ck : Str) (now : Int) (fs : List Feature) :
    ∀ (m : List (Str × TEvent)) (a : List Str),
      (∀ f ∈ fs, ¬ f.siteId = [] → f.status = 1 →
        (mapLookup (eventKey ck f.siteId) m).isSome = true) →
      proj (phase1 w ck now fs (m, a)).1 = proj m := by
  induction fs with
  | nil => intro m a _; rfl
  | cons f fs ih =>
    intro m a h
    show proj (phase1 w ck now fs (step1 w ck now (m, a) f)).1 = proj m
    have hstep : proj (step1 w ck now (m, a) f).1 = proj m :=
      step1_proj w ck now f m a (h f (List.mem_cons_self _ _))
    have hkeys : (step1 w ck now (m, a) f).1.map Prod.fst = m.map Prod.fst := by
      rw [← proj_keys, ← proj_keys, hstep]
    have h' : ∀ g ∈ fs, ¬ g.siteId = [] → g.status = 1 →
        (mapLookup (eventKey ck g.siteId) (step1 w ck now (m, a) f).1).isSome = true := by
      intro g hg hg1 hg2
      rw [mapLookup_isSome_iff, hkeys, ← mapLookup_isSome_iff]
      exact h g (List.mem_cons_of_mem _ hg) hg1 hg2
    have hp : step1 w ck now (m, a) f =
        ((step1 w ck now (m, a) f).1, (step1 w ck now (m, a) f).2) := rfl
    rw [hp, ih _ _ h', hstep]

/-- Values found after the loop either predate it (same site and start) or
come from a discharging feature of this snapshot. -/
lemma phase1_lookup_origin (w ck : Str) (now : Int) (fs : List Feature) :
    ∀ (m : List (Str × TEvent)) (a : List Str) (k : Str) (e : TEvent),
      mapLookup k (phase1 w ck now fs (m, a)).1 = some e →
      (∃ e0, mapLookup k m = some e0 ∧ e.siteId = e0.siteId ∧
        e.startTime = e0.startTime) ∨
      (∃ f ∈ fs, ¬ f.siteId = [] ∧ f.status = 1 ∧ k = eventKey ck f.siteId ∧
        e.siteId = f.siteId) := by
  induction fs with
  | nil => intro m a k e h; exact Or.inl ⟨e, h, rfl, rfl⟩
  | cons f fs ih =>
    intro m a k e h
    have h' : mapLookup k (phase1 w ck now fs ((step1 w ck now (m, a) f).1,
        (step1 w ck now (m, a) f).2)).1 = some e := h
    rcases ih _ _ k e h' with hL | hR
    · obtain ⟨e1, he1, hs1, hst1⟩ := hL
      by_cases h1 : f.siteId = []
      · refine Or.inl ⟨e1, ?_, hs1, hst1⟩
        rw [← he1]
        show mapLookup k m = mapLookup k (step1 w ck now (m, a) f).1
        unfold step1
        rw [if_pos h1]
      · by_cases h2 : f.status = 1
        · cases hm : mapLookup (eventKey ck f.siteId) m with
          | none =>
            have he1' : mapLookup k
                (mapSet (eventKey ck f.siteId) (newEvent w ck now f) m) = some e1 := by
              rw [← he1]
              show mapLookup k (mapSet (eventKey ck f.siteId) (newEvent w ck now f) m) =
                mapLookup k (step1 w ck now (m, a) f).1
              unfold step1
              rw [if_neg h1, if_pos h2]
              have hm' : mapLookup (eventKey ck f.siteId) (m, a).1 = none := hm
              rw [hm']
            rw [mapLookup_mapSet] at he1'
            by_cases hek : eventKey ck f.siteId = k
            · rw [if_pos hek] at he1'
              have hne : e1 = newEvent w ck now f := (Option.some_inj.mp he1').symm
              refine Or.inr ⟨f, List.mem_cons_self _ _, h1, h2, hek.symm, ?_⟩
              rw [hs1, hne]
              rfl
            · rw [if_neg hek] at he1'
              exact Or.inl ⟨e1, he1', hs1, hst1⟩
          | some e2 =>
            have he1' : mapLookup k
                (mapSet (eventKey ck f.siteId) (metaUpdate f e2) m) = some e1 := by
              rw [← he1]
              show mapLookup k (mapSet (eventKey ck f.siteId) (metaUpdate f e2) m) =
                mapLookup k (step1 w ck now (m, a) f).1
              unfold step1
              rw [if_neg h1, if_pos h2]
              have hm' : mapLookup (eventKey ck f.siteId) (m, a).1 = some e2 := hm
              rw [hm']
            rw [mapLookup_mapSet] at he1'
            by_cases hek : eventKey ck f.siteId = k
            · rw [if_pos hek] at he1'
              have hne : e1 = metaUpdate f e2 := (Option.some_inj.mp he1').symm
              refine Or.inl ⟨e2, by rw [← hek]; exact hm, ?_, ?_⟩
              · rw [hs1, hne]
                rfl
              · rw [hst1, hne]
                rfl
            · rw [if_neg hek] at he1'
              exact Or.inl ⟨e1, he1', hs1, hst1⟩
        · refine Or.inl ⟨e1, ?_, hs1, hst1⟩
          rw [← he1]
          show mapLookup k m = mapLookup k (step1 w ck now (m, a) f).1
          unfold step1
          rw [if_neg h1, if_neg h2]
    · obtain ⟨g, hg, hrest⟩ := hR
      exact Or.inr ⟨g, List.mem_cons_of_mem _ hg, hrest⟩

/-- Entries kept by the end-detection loop were present and not removable. -/
lemma phase2_mem_fst {ck : Str} {now : Int} {act : List Str} :
    ∀ {m : List (Str × TEvent)} {p : Str × TEvent},
      p ∈ (phase2 ck now act m).1 →
      p ∈ m ∧ ¬((ck ++ [':']) <+: p.1 ∧ p.2.siteId ∉ act) := by
  intro m
  induction m with
  | nil => intro p hp; cases hp
  | cons q m ih =>
    obtain ⟨k0, e0⟩ := q
    intro p hp
    rw [phase2] at hp
    by_cases hc : (ck ++ [':']) <+: k0 ∧ e0.siteId ∉ act
    · rw [if_pos hc] at hp
      rcases ih hp with ⟨h1, h2⟩
      exact ⟨List.mem_cons_of_mem _ h1, h2⟩
    · rw [if_neg hc] at hp
      rcases List.mem_cons.mp hp with rfl | hp
      · exact ⟨List.mem_cons_self _ _, hc⟩
      · rcases ih hp with ⟨h1, h2⟩
        exact ⟨List.mem_cons_of_mem _ h1, h2⟩

/-- An entry that fails the removal condition survives the end-detection loop
at the same key. -/
lemma phase2_lookup_keep {ck : Str} {now : Int} {act : List Str} :
    ∀ (m : List (Str × TEvent)) (k : Str) (e : TEvent),
      mapLookup k m = some e →
      ¬((ck ++ [':']) <+: k ∧ e.siteId ∉ act) →
      mapLookup k (phase2 ck now act m).1 = some e := by
  intro m
  induction m with
  | nil => intro k e h; cases h
  | cons q m ih =>
    obtain ⟨k0, e0⟩ := q
    intro k e hl hkeep
    rw [mapLookup] at hl
    rw [phase2]
    by_cases hc : (ck ++ [':']) <+: k0 ∧ e0.siteId ∉ act
    · rw [if_pos hc]
      by_cases hk : k0 = k
      · exfalso
        have hk' : (k0, e0).1 = k := hk
        rw [if_pos hk'] at hl
        have he : e0 = e := Option.some_inj.mp hl
        apply hkeep
        rw [← hk, ← he]
        exact hc
      · have hk' : ¬ (k0, e0).1 = k := hk
        rw [if_neg hk'] at hl
        exact ih k e hl hkeep
    · rw [if_neg hc, mapLookup]
      by_cases hk : k0 = k
      · have hk' : (k0, e0).1 = k := hk
        rw [if_pos hk'] at hl
        rw [if_pos hk']
        exact hl
      · have hk' : ¬ (k0, e0).1 = k := hk
        rw [if_neg hk'] at hl
        rw [if_neg hk']
        exact ih k e hl hkeep

/-- If no entry satisfies the removal condition, the end-detection loop is
the identity and completes nothing. -/
lemma phase2_no_removals {ck : Str} {now : Int} {act : List Str} :
    ∀ (m : List (Str × TEvent)),
      (∀ p ∈ m, ¬((ck ++ [':']) <+: p.1 ∧ p.2.siteId ∉ act)) →
      phase2 ck now act m = (m, []) := by
  intro m
  induction m with
  | nil => intro _; rfl
  | cons q m ih =>
    obtain ⟨k0, e0⟩ := q
    intro h
    rw [phase2, if_neg (h (k0, e0) (List.mem_cons_self _ _)),
      ih (fun p hp => h p (List.mem_cons_of_mem _ hp))]

/-- C6: replaying the same snapshot immediately (with the same fetch result
and any later clock) completes no events and leaves the active map's keys,
site ids and start times exactly as after the first ingestion. The
well-formedness hypothesis — each entry of this company is keyed by its own
site id — holds for every map the tracker itself builds. -/
theorem claim_c6 (w : Str) (fs : List Feature) (now1 now2 : Int)
    (m : List (Str × TEvent))
    (hwf : ∀ p ∈ m, (companyKeyStr w ++ [':']) <+: p.1 →
      p.1 = eventKey (companyKeyStr w) p.2.siteId) :
    (processFeatures w fs now2 (processFeatures w fs now1 m).1).2 = [] ∧
    proj (processFeatures w fs now2 (processFeatures w fs now1 m).1).1 =
      proj (processFeatures w fs now1 m).1 := by
  have hA : ∀ f ∈ fs, ¬ f.siteId = [] → f.status = 1 →
      (mapLookup (eventKey (companyKeyStr w) f.siteId)
        (processFeatures w fs now1 m).1).isSome = true := by
    intro f hf h1 h2
    have hpres : (mapLookup (eventKey (companyKeyStr w) f.siteId)
        (phase1 w (companyKeyStr w) now1 fs (m, [])).1).isSome = true :=
      phase1_mem_after w (companyKeyStr w) now1 m [] hf h1 h2
    obtain ⟨e, he⟩ := Option.isSome_iff_exists.mp hpres
    have hsid : e.siteId = f.siteId := by
      rcases phase1_lookup_origin w (companyKeyStr w) now1 fs m [] _ e he with
        ⟨e0, he0, hs, _⟩ | ⟨g, _, _, _, hk, hs⟩
      · have hmem := mapLookup_some_mem he0
        have hkey := hwf _ hmem (eventKey_pre _ _)
        have := eventKey_inj hkey
        rw [hs, ← this]
      · have := eventKey_inj hk
        rw [hs, ← this]
    have hact : f.siteId ∈ (phase1 w (companyKeyStr w) now1 fs (m, [])).2 :=
      phase1_act_mem w (companyKeyStr w) now1 m [] hf h1 h2
    have hkeep : ¬((companyKeyStr w ++ [':']) <+: eventKey (companyKeyStr w) f.siteId ∧
        e.siteId ∉ (phase1 w (companyKeyStr w) now1 fs (m, [])).2) := by
      rintro ⟨_, hno⟩
      exact hno (by rw [hsid]; exact hact)
    have hfinal : mapLookup (eventKey (companyKeyStr w) f.siteId)
        (processFeatures w fs now1 m).1 = some e :=
      phase2_lookup_keep _ _ _ he hkeep
    rw [hfinal]
    rfl
  have hproj : proj (phase1 w (companyKeyStr w) now2 fs
      ((processFeatures w fs now1 m).1, [])).1 =
      proj (processFeatures w fs now1 m).1 :=
    phase1_proj w (companyKeyStr w) now2 fs _ [] hA
  have hacts : (phase1 w (companyKeyStr w) now2 fs
      ((processFeatures w fs now1 m).1, [])).2 =
      (phase1 w (companyKeyStr w) now1 fs (m, [])).2 :=
    phase1_act_eq w (companyKeyStr w) now2 now1 fs _ m []
  have hnorem : ∀ p ∈ (phase1 w (companyKeyStr w) now2 fs
      ((processFeatures w fs now1 m).1, [])).1,
      ¬((companyKeyStr w ++ [':']) <+: p.1 ∧
        p.2.siteId ∉ (phase1 w (companyKeyStr w) now2 fs
          ((processFeatures w fs now1 m).1, [])).2) := by
    rintro p hp ⟨hpref, hno⟩
    have hmem : (p.1, p.2.siteId, p.2.startTime) ∈
        proj (processFeatures w fs now1 m).1 := by
      rw [← hproj]
      exact List.mem_map_of_mem _ hp
    obtain ⟨q, hq, hqe⟩ := List.mem_map.mp hmem
    rw [Prod.mk.injEq, Prod.mk.injEq] at hqe
    obtain ⟨hq1, hq2, _⟩ := hqe
    have hq' : q ∈ (phase2 (companyKeyStr w) now1
        (phase1 w (companyKeyStr w) now1 fs (m, [])).2
        (phase1 w (companyKeyStr w) now1 fs (m, [])).1).1 := hq
    have hkept := (phase2_mem_fst hq').2
    apply hkept
    constructor
    · rw [hq1]
      exact hpref
    · rw [hq2]
      rw [hacts] at hno
      exact hno
  have hfin := @phase2_no_removals (companyKeyStr w) now2
    (phase1 w (companyKeyStr w) now2 fs ((processFeatures w fs now1 m).1, [])).2
    _ hnorem
  constructor
  · show (phase2 (companyKeyStr w) now2
        (phase1 w (companyKeyStr w) now2 fs ((processFeatures w fs now1 m).1, [])).2
        (phase1 w (companyKeyStr w) now2 fs ((processFeatures w fs now1 m).1, [])).1).2 = []
    rw [hfin]
  · show proj (phase2 (companyKeyStr w) now2
        (phase1 w (companyKeyStr w) now2 fs ((processFeatures w fs now1 m).1, [])).2
        (phase1 w (companyKeyStr w) now2 fs ((processFeatures w fs now1 m).1, [])).1).1 =
      proj (processFeatures w fs now1 m).1
    rw [hfin]
    exact hproj

/-- C6 witness: replaying the sample snapshot (one discharging feature) on the
empty tracker state is a no-op for the second ingestion. -/
theorem claim_c6_witness :
    (processFeatures ['x'] [feat1] 5 (processFeatures ['x'] [feat1] 3 []).1).2 = [] ∧
    proj (processFeatures ['x'] [feat1] 5 (processFeatures ['x'] [feat1] 3 []).1).1 =
      proj (processFeatures ['x'] [feat1] 3 []).1 :=
  claim_c6 ['x'] [feat1] 3 5 [] (by intro p hp; cases hp)

/-! ## Lemmas towards C10 (per-company fetch isolation) -/

/-- Longest colon-free prefix, used to compare composite keys. -/
def upToColon : List Char → List Char
  | [] => []
  | c :: cs => if c = ':' then [] else c :: upToColon cs

/-- The colon-free head of a composite key is the company part. -/
lemma upToColon_append {l : List Char} (h : ∀ c ∈ l, ¬ c = ':')
    (t : List Char) : upToColon (l ++ ':' :: t) = l := by
  induction l with
  | nil =>
    show upToColon (':' :: t) = []
    rw [upToColon, if_pos rfl]
  | cons c cs ih =>
    rw [List.cons_append, upToColon, if_neg (h c (List.mem_cons_self _ _)),
      ih (fun d hd => h d (List.mem_cons_of_mem _ hd))]

/-- Two colon-free company keys with the same colon-terminated prefix of a
composite key coincide. -/
lemma colonFree_prefix_eq {a b s : Str}
    (ha : ∀ c ∈ a, ¬ c = ':') (hb : ∀ c ∈ b, ¬ c = ':')
    (hpre : (a ++ [':']) <+: (b ++ ':' :: s)) : a = b := by
  obtain ⟨u, hu⟩ := hpre
  have h1 : a ++ ':' :: u = b ++ ':' :: s := by
    rw [← hu, List.append_assoc]
    rfl
  have h2 := congrArg upToColon h1
  rw [upToColon_append ha, upToColon_append hb] at h2
  exact h2

/-- A different colon-free company key is never a prefix of this company's
composite keys. -/
lemma colonFree_no_overlap {a b s : Str}
    (ha : ∀ c ∈ a, ¬ c = ':') (hb : ∀ c ∈ b, ¬ c = ':') (hne : ¬ a = b) :
    ¬ (a ++ [':']) <+: eventKey b s :=
  fun h => hne (colonFree_prefix_eq ha hb h)

/-- The slice of the active map belonging to one company key. -/
def regionOf (ck : Str) (m : List (Str × TEvent)) : List (Str × TEvent) :=
  m.filter (fun p => (ck ++ [':']) <+: p.1)

/-- Setting a key outside the region leaves the region unchanged. -/
lemma region_mapSet {ck k : Str} (v : TEvent) (m : List (Str × TEvent))
    (h : ¬ (ck ++ [':']) <+: k) : regionOf ck (mapSet k v m) = regionOf ck m := by
  induction m with
  | nil =>
    show List.filter _ [(k, v)] = List.filter _ []
    rw [List.filter_cons_of_neg (by simpa using h)]
  | cons a m ih =>
    rw [mapSet]
    by_cases ha : a.1 = k
    · rw [if_pos ha]
      unfold regionOf
      rw [List.filter_cons_of_neg (by simpa using h),
        List.filter_cons_of_neg (by rw [ha]; simpa using h)]
    · rw [if_neg ha]
      unfold regionOf at ih ⊢
      by_cases hp : (ck ++ [':']) <+: a.1
      · rw [List.filter_cons_of_pos (by simpa using hp),
          List.filter_cons_of_pos (by simpa using hp), ih]
      · rw [List.filter_cons_of_neg (by simpa using hp),
          List.filter_cons_of_neg (by simpa using hp), ih]

/-- A foreign company's loop step does not touch this company's region. -/
lemma region_step1 {ckX : Str} (w ck : Str) (now : Int) (f : Feature)
    (m : List (Str × TEvent)) (a : List Str)
    (hne : ∀ s : Str, ¬ (ckX ++ [':']) <+: eventKey ck s) :
    regionOf ckX (step1 w ck now (m, a) f).1 = regionOf ckX m := by
  unfold step1
  by_cases h1 : f.siteId = []
  · rw [if_pos h1]
  · rw [if_neg h1]
    by_cases h2 : f.status = 1
    · rw [if_pos h2]
      cases hm : mapLookup (eventKey ck f.siteId) (m, a).1 with
      | none => exact region_mapSet _ _ (hne f.siteId)
      | some e => exact region_mapSet _ _ (hne f.siteId)
    · rw [if_neg h2]

/-- A foreign company's feature loop does not touch this company's region. -/
lemma region_phase1 {ckX : Str} (w ck : Str) (now : Int) (fs : List Feature)
    (hne : ∀ s : Str, ¬ (ckX ++ [':']) <+: eventKey ck s) :
    ∀ (m : List (Str × TEvent)) (a : List Str),
      regionOf ckX (phase1 w ck now fs (m, a)).1 = regionOf ckX m := by
  induction fs with
  | nil => intro m a; rfl
  | cons f fs ih =>
    intro m a
    show regionOf ckX (phase1 w ck now fs (step1 w ck now (m, a) f)).1 = regionOf ckX m
    have hp : step1 w ck now (m, a) f =
        ((step1 w ck now (m, a) f).1, (step1 w ck now (m, a) f).2) := rfl
    rw [hp, ih _ _, region_step1 w ck now f m a hne]

/-- Key/id agreement: every stored event is keyed by its own id. -/
def idkey (m : List (Str × TEvent)) : Prop := ∀ p ∈ m, p.2.id = p.1

/-- Entries after `Map.set` are the new pair or old entries. -/
lemma mem_mapSet {β : Type} {k : Str} {v : β} {p : Str × β}
    {m : List (Str × β)} (hp : p ∈ mapSet k v m) : p = (k, v) ∨ p ∈ m := by
  induction m with
  | nil =>
    rcases List.mem_cons.mp hp with h | h
    · exact Or.inl h
    · cases h
  | cons a m ih =>
    rw [mapSet] at hp
    by_cases ha : a.1 = k
    · rw [if_pos ha] at hp
      rcases List.mem_cons.mp hp with h | h
      · exact Or.inl h
      · exact Or.inr (List.mem_cons_of_mem _ h)
    · rw [if_neg ha] at hp
      rcases List.mem_cons.mp hp with h | h
      · exact Or.inr (by rw [h]; exact List.mem_cons_self _ _)
      · rcases ih h with h' | h'
        · exact Or.inl h'
        · exact Or.inr (List.mem_cons_of_mem _ h')

/-- The loop step keeps key/id agreement. -/
lemma idkey_step1 (w ck : Str) (now : Int) (f : Feature)
    (m : List (Str × TEvent)) (a : List Str) (hid : idkey m) :
    idkey (step1 w ck now (m, a) f).1 := by
  unfold step1
  by_cases h1 : f.siteId = []
  · rw [if_pos h1]; exact hid
  · rw [if_neg h1]
    by_cases h2 : f.status = 1
    · rw [if_pos h2]
      cases hm : mapLookup (eventKey ck f.siteId) (m, a).1 with
      | none =>
        intro p hp
        rcases mem_mapSet hp with h | h
        · rw [h]; rfl
        · exact hid p h
      | some e =>
        have hm' : mapLookup (eventKey ck f.siteId) m = some e := hm
        have he : e.id = eventKey ck f.siteId := hid _ (mapLookup_some_mem hm')
        intro p hp
        rcases mem_mapSet hp with h | h
        · rw [h]
          show (metaUpdate f e).id = eventKey ck f.siteId
          rw [show (metaUpdate f e).id = e.id from rfl, he]
        · exact hid p h
    · rw [if_neg h2]; exact hid

/-- The feature loop keeps key/id agreement. -/
lemma idkey_phase1 (w ck : Str) (now : Int) (fs : List Feature) :
    ∀ (m : List (Str × TEvent)) (a : List Str), idkey m →
      idkey (phase1 w ck now fs (m, a)).1 := by
  induction fs with
  | nil => intro m a hid; exact hid
  | cons f fs ih =>
    intro m a hid
    show idkey (phase1 w ck now fs (step1 w ck now (m, a) f)).1
    have hp : step1 w ck now (m, a) f =
        ((step1 w ck now (m, a) f).1, (step1 w ck now (m, a) f).2) := rfl
    rw [hp]
    exact ih _ _ (idkey_step1 w ck now f m a hid)

/-- The end-detection loop keeps key/id agreement. -/
lemma idkey_phase2 (ck : Str) (now : Int) (act : List Str)
    (m : List (Str × TEvent)) (hid : idkey m) :
    idkey (phase2 ck now act m).1 :=
  fun p hp => hid p (phase2_mem_fst hp).1

/-- A foreign company's end-detection loop leaves this company's region
intact and completes nothing with this company's id prefix. -/
lemma region_phase2 {ckX ck : Str} (now : Int) (act : List Str)
    (hdiff : ∀ k : Str, (ck ++ [':']) <+: k → ¬ (ckX ++ [':']) <+: k) :
    ∀ (m : List (Str × TEvent)), idkey m →
      regionOf ckX (phase2 ck now act m).1 = regionOf ckX m ∧
      ∀ e ∈ (phase2 ck now act m).2, ¬ (ckX ++ [':']) <+: e.id := by
  intro m
  induction m with
  | nil => intro _; exact ⟨rfl, fun e he => absurd he (List.not_mem_nil _)⟩
  | cons q m ih =>
    obtain ⟨k0, e0⟩ := q
    intro hid
    have hid' : idkey m := fun p hp => hid p (List.mem_cons_of_mem _ hp)
    obtain ⟨ihr, ihc⟩ := ih hid'
    rw [phase2]
    by_cases hc : (ck ++ [':']) <+: k0 ∧ e0.siteId ∉ act
    · rw [if_pos hc]
      have hnX : ¬ (ckX ++ [':']) <+: k0 := hdiff k0 hc.1
      constructor
      · show regionOf ckX (phase2 ck now act m).1 = regionOf ckX ((k0, e0) :: m)
        rw [ihr]
        unfold regionOf
        rw [List.filter_cons_of_neg (by simpa using hnX)]
      · intro e he
        rcases List.mem_cons.mp he with rfl | he
        · show ¬ (ckX ++ [':']) <+: (completeEvent now e0).id
          rw [show (completeEvent now e0).id = e0.id from rfl,
            hid (k0, e0) (List.mem_cons_self _ _)]
          exact hnX
        · exact ihc e he
    · rw [if_neg hc]
      constructor
      · show regionOf ckX ((k0, e0) :: (phase2 ck now act m).1) =
          regionOf ckX ((k0, e0) :: m)
        unfold regionOf at ihr ⊢
        by_cases hX : (ckX ++ [':']) <+: k0
        · rw [List.filter_cons_of_pos (by simpa using hX),
            List.filter_cons_of_pos (by simpa using hX), ihr]
        · rw [List.filter_cons_of_neg (by simpa using hX),
            List.filter_cons_of_neg (by simpa using hX), ihr]
      · exact ihc

/-- One full foreign `processFeatures` call: this company's region is
untouched, no completion carries this company's prefix, key/id agreement is
kept. -/
lemma processFeatures_frame {ckX : Str} (w : Str) (fs : List Feature)
    (now : Int) (m : List (Str × TEvent))
    (hX : ∀ c ∈ ckX, ¬ c = ':')
    (hW : ∀ c ∈ companyKeyStr w, ¬ c = ':')
    (hne : ¬ ckX = companyKeyStr w) (hid : idkey m) :
    regionOf ckX (processFeatures w fs now m).1 = regionOf ckX m ∧
    (∀ e ∈ (processFeatures w fs now m).2, ¬ (ckX ++ [':']) <+: e.id) ∧
    idkey (processFeatures w fs now m).1 := by
  have hnepre : ∀ s : Str, ¬ (ckX ++ [':']) <+: eventKey (companyKeyStr w) s :=
    fun s => colonFree_no_overlap hX hW hne
  have hdiff : ∀ k : Str, (companyKeyStr w ++ [':']) <+: k →
      ¬ (ckX ++ [':']) <+: k := by
    intro k hk
    obtain ⟨u, hu⟩ := hk
    have hk' : k = companyKeyStr w ++ ':' :: u := by
      rw [← hu, List.append_assoc]
      rfl
    rw [hk']
    exact hnepre u
  have hid1 : idkey (phase1 w (companyKeyStr w) now fs (m, [])).1 :=
    idkey_phase1 w (companyKeyStr w) now fs m [] hid
  obtain ⟨hr2, hc2⟩ := region_phase2 now
    (phase1 w (companyKeyStr w) now fs (m, [])).2 hdiff
    (phase1 w (companyKeyStr w) now fs (m, [])).1 hid1
  refine ⟨?_, hc2, idkey_phase2 _ _ _ _ hid1⟩
  show regionOf ckX (phase2 (companyKeyStr w) now
    (phase1 w (companyKeyStr w) now fs (m, [])).2
    (phase1 w (companyKeyStr w) now fs (m, [])).1).1 = regionOf ckX m
  rw [hr2]
  exact region_phase1 w (companyKeyStr w) now fs hnepre m []

/-- C10: if one company's fetch throws or returns an empty feature list in a
tick, that company's active events are untouched by the whole tick — no
creation, no metadata change, no completion — whatever the other companies'
snapshots contain. Hypotheses: company keys are colon-free (true of every
configured water company) and stored events are keyed by their own ids (true
of every map the tracker builds). -/
theorem claim_c10 (entries : List (Str × Int × FetchOutcome))
    (m : List (Str × TEvent)) (ckX : Str)
    (hX : ∀ c ∈ ckX, ¬ c = ':')
    (hid : ∀ p ∈ m, p.2.id = p.1)
    (hfree : ∀ t ∈ entries, ∀ c ∈ companyKeyStr t.1, ¬ c = ':')
    (hfail : ∀ t ∈ entries, companyKeyStr t.1 = ckX →
      (t.2.2 = FetchOutcome.err ∨ t.2.2 = FetchOutcome.ok [])) :
    regionOf ckX (checkAPI entries m).1 = regionOf ckX m ∧
    ∀ e ∈ (checkAPI entries m).2, ¬ (ckX ++ [':']) <+: e.id := by
  induction entries generalizing m with
  | nil => exact ⟨rfl, fun e he => absurd he (List.not_mem_nil _)⟩
  | cons t rest ih =>
    obtain ⟨w, now, o⟩ := t
    have hfree' : ∀ t ∈ rest, ∀ c ∈ companyKeyStr t.1, ¬ c = ':' :=
      fun t ht => hfree t (List.mem_cons_of_mem _ ht)
    have hfail' : ∀ t ∈ rest, companyKeyStr t.1 = ckX →
        (t.2.2 = FetchOutcome.err ∨ t.2.2 = FetchOutcome.ok []) :=
      fun t ht => hfail t (List.mem_cons_of_mem _ ht)
    cases o with
    | err =>
      have hrest := ih m hid hfree' hfail'
      exact ⟨hrest.1, fun e he => hrest.2 e he⟩
    | ok fs =>
      by_cases hfs : fs = []
      · subst hfs
        have hrest := ih m hid hfree' hfail'
        exact ⟨hrest.1, fun e he => hrest.2 e he⟩
      · have hw : ¬ ckX = companyKeyStr w := by
          intro hw
          rcases hfail (w, now, FetchOutcome.ok fs) (List.mem_cons_self _ _)
            hw.symm with h | h
          · cases h
          · exact hfs (by injection h)
        obtain ⟨hsr, hsc, hsid⟩ := processFeatures_frame w fs now m hX
          (hfree (w, now, FetchOutcome.ok fs) (List.mem_cons_self _ _)) hw hid
        have hrest := ih (processFeatures w fs now m).1 hsid hfree' hfail'
        constructor
        · show regionOf ckX (checkAPI rest
            (if fs = [] then ((m, []) : List (Str × TEvent) × List TEvent)
             else processFeatures w fs now m).1).1 = regionOf ckX m
          rw [if_neg hfs, hrest.1, hsr]
        · show ∀ e ∈ ((if fs = [] then ((m, []) : List (Str × TEvent) × List TEvent)
              else processFeatures w fs now m).2 ++
            (checkAPI rest
              (if fs = [] then ((m, []) : List (Str × TEvent) × List TEvent)
               else processFeatures w fs now m).1).2),
            ¬ (ckX ++ [':']) <+: e.id
          rw [if_neg hfs]
          intro e he
          rcases List.mem_append.mp he with h | h
          · exact hsc e h
          · exact hrest.2 e h

/-- Sample active event for the isolation witness: company key `x`, site `s`. -/
def tevX : TEvent :=
  ⟨['x', ':', 's'], ['x'], ['s'], none, none, none, 0, none, none, .active, none, []⟩

/-- C10 witness: company `x` errors while company `y` processes a discharging
feature; the `x` region of the map is untouched and nothing completed carries
the `x:` prefix. -/
theorem claim_c10_witness :
    regionOf ['x'] (checkAPI [(['x'], 0, FetchOutcome.err),
      (['y'], 1, FetchOutcome.ok [feat1])] [(['x', ':', 's'], tevX)]).1 =
      regionOf ['x'] [(['x', ':', 's'], tevX)] ∧
    ∀ e ∈ (checkAPI [(['x'], 0, FetchOutcome.err),
      (['y'], 1, FetchOutcome.ok [feat1])] [(['x', ':', 's'], tevX)]).2,
      ¬ (['x'] ++ [':']) <+: e.id :=
  claim_c10 [(['x'], 0, FetchOutcome.err), (['y'], 1, FetchOutcome.ok [feat1])]
    [(['x', ':', 's'], tevX)] ['x'] (by decide) (by decide) (by decide) (by decide)

/-! ## Post scheduler (`PostScheduler`, scheduler/post-scheduler.js)

`index.js` wires in the interval-based scheduler whose success path tweets
about `events[0]` and marks only that event (`processNextPost`); the repo also
contains a fixed-schedule variant that marks every event of the batch
(`processNextPostFixed`, the second `PostScheduler` source). The async
collaborators are oracle booleans: cycle-data generation, GitHub publish,
Twitter configured, tweet success. -/

/-- Daily-counter state of the scheduler. -/
structure SchedulerState where
  postsToday : Int
  lastPostDate : Option Str
deriving DecidableEq, Repr

/-- Embeds `resetDailyCounterIfNeeded`. -/
def resetDailyCounterIfNeeded (s : SchedulerState) (today : Str) : SchedulerState :=
  if ¬ s.lastPostDate = some today then ⟨0, some today⟩ else s

/-- Observable result of one publishing cycle: final queue, final scheduler
state, the batch included in a successful GitHub publish (empty when none
happened), and the ids passed to `markAsPosted`. -/
structure CycleOutcome where
  queue : EventQueue
  sched : SchedulerState
  publishedBatch : List QueueEntry
  markedIds : List Str
deriving DecidableEq, Repr

/-- Embeds `PostScheduler.processNextPost` of the scheduler imported by
`index.js`: empty queue aborts; cycle-data or GitHub failure aborts with no
marking; on tweet success only `events[0]` is marked as posted. -/
def processNextPost (q : EventQueue) (s : SchedulerState) (today : Str)
    (cycleOk publishOk twitterConfigured tweetOk : Bool) : CycleOutcome :=
  let s1 := resetDailyCounterIfNeeded s today
  match getPostableEvents q with
  | [] => ⟨q, s1, [], []⟩
  | e0 :: rest =>
    if cycleOk = false then ⟨q, s1, [], []⟩
    else if publishOk = false then ⟨q, s1, [], []⟩
    else if twitterConfigured = true then
      if tweetOk = true then
        ⟨markAsPosted q e0.ev.id, ⟨s1.postsToday + 1, s1.lastPostDate⟩,
          e0 :: rest, [e0.ev.id]⟩
      else ⟨q, s1, e0 :: rest, []⟩
    else ⟨q, s1, e0 :: rest, []⟩

/-- Marks a whole batch as posted, in order. -/
def markAllPosted (q : EventQueue) : List QueueEntry → EventQueue
  | [] => q
  | en :: l => markAllPosted (markAsPosted q en.ev.id) l

/-- Embeds `processNextPost` of the fixed-schedule `PostScheduler` variant:
identical flow, but on tweet success every event of the cycle is marked. -/
def processNextPostFixed (q : EventQueue) (s : SchedulerState) (today : Str)
    (cycleOk publishOk twitterConfigured tweetOk : Bool) : CycleOutcome :=
  let s1 := resetDailyCounterIfNeeded s today
  match getPostableEvents q with
  | [] => ⟨q, s1, [], []⟩
  | e0 :: rest =>
    if cycleOk = false then ⟨q, s1, [], []⟩
    else if publishOk = false then ⟨q, s1, [], []⟩
    else if twitterConfigured = true then
      if tweetOk = true then
        ⟨markAllPosted q (e0 :: rest), ⟨s1.postsToday + 1, s1.lastPostDate⟩,
          e0 :: rest, (e0 :: rest).map (fun en => en.ev.id)⟩
      else ⟨q, s1, e0 :: rest, []⟩
    else ⟨q, s1, e0 :: rest, []⟩

/-- Initial scheduler state from the constructor. -/
def schedInit : SchedulerState := ⟨0, none⟩

/-- Queue loaded with the two sample events, both above threshold. -/
def qC5 : EventQueue := (addEvent (addEvent EventQueue.init qev1 1).2 qev2 2).2

/-- C5 (amended): on any failure — cycle data, GitHub publish, Twitter not
configured, or tweet error — no event is marked and the queue is untouched in
both scheduler variants (the all-or-nothing failure direction holds); on full
success the wired-in scheduler marks exactly the first event of the ordered
batch, while the fixed-schedule variant marks every batch event. -/
theorem claim_c5 (q : EventQueue) (s : SchedulerState) (today : Str)
    (co po tc tw : Bool) :
    ((co = false ∨ po = false ∨ tc = false ∨ tw = false) →
      (processNextPost q s today co po tc tw).markedIds = [] ∧
      (processNextPost q s today co po tc tw).queue = q ∧
      (processNextPostFixed q s today co po tc tw).markedIds = [] ∧
      (processNextPostFixed q s today co po tc tw).queue = q) ∧
    (co = true → po = true → tc = true → tw = true →
      (processNextPost q s today co po tc tw).markedIds =
        ((getPostableEvents q).take 1).map (fun en => en.ev.id) ∧
      (processNextPostFixed q s today co po tc tw).markedIds =
        (getPostableEvents q).map (fun en => en.ev.id)) := by
  constructor
  · intro h
    unfold processNextPost processNextPostFixed
    cases hq : getPostableEvents q with
    | nil => exact ⟨rfl, rfl, rfl, rfl⟩
    | cons e0 rest =>
      cases co <;> cases po <;> cases tc <;> cases tw <;>
        first
        | exact ⟨rfl, rfl, rfl, rfl⟩
        | (rcases h with h | h | h | h <;> cases h)
  · intro hco hpo htc htw
    subst hco
    subst hpo
    subst htc
    subst htw
    unfold processNextPost processNextPostFixed
    cases hq : getPostableEvents q with
    | nil => exact ⟨rfl, rfl⟩
    | cons e0 rest => exact ⟨rfl, rfl⟩

/-- C5 witness: with two postable events and a fully successful cycle, the
wired-in scheduler marks the single head id while the variant marks both. -/
theorem claim_c5_witness :
    (processNextPost qC5 schedInit ['d'] true true true true).markedIds =
      ((getPostableEvents qC5).take 1).map (fun en => en.ev.id) ∧
    (processNextPostFixed qC5 schedInit ['d'] true true true true).markedIds =
      (getPostableEvents qC5).map (fun en => en.ev.id) :=
  (claim_c5 qC5 schedInit ['d'] true true true true).2 rfl rfl rfl rfl

/-- C5 counterexample: a fully successful cycle publishes a two-event batch
but marks only the first event; the second event of the published batch stays
unmarked, refuting markDispatched-for-every-batch-event-iff-success. -/
theorem claim_c5_counterexample :
    (processNextPost qC5 schedInit ['d'] true true true true).publishedBatch.length = 2 ∧
    (processNextPost qC5 schedInit ['d'] true true true true).markedIds = [['a']] ∧
    qev2.id ∈ (processNextPost qC5 schedInit ['d'] true true true
      true).publishedBatch.map (fun en => en.ev.id) ∧
    qev2.id ∉ (processNextPost qC5 schedInit ['d'] true true true true).markedIds := by
  decide

/-! ## Publishing cadence (C8)

The wired-in scheduler posts once at `start()` and then on a `setInterval`
timer, so publish attempts happen at `t0 + n * intervalMs`; a publish is a
subset of those ticks. Calendar days are UTC windows of `dayMs` milliseconds
(`toISOString` date in `resetDailyCounterIfNeeded`). -/

/-- Embeds `this.intervalMs = 90 * 60 * 1000`. -/
def intervalMs : Int := 90 * 60 * 1000

/-- Embeds `this.maxPostsPerDay = 16`. -/
def maxPostsPerDay : Nat := 16

/-- Milliseconds per UTC calendar day. -/
def dayMs : Int := 24 * 60 * 60 * 1000

/-- Publish-attempt instants of the interval scheduler. -/
def tickTime (t0 : Int) (n : Nat) : Int := t0 + n * intervalMs

/-- UTC calendar day of an epoch instant. -/
def dayIndex (t : Int) : Int := Int.fdiv t dayMs

/-- Day membership gives the window bounds. -/
lemma dayIndex_bounds {t d : Int} (h : dayIndex t = d) :
    dayMs * d ≤ t ∧ t < dayMs * (d + 1) := by
  have hfd : Int.fdiv t dayMs = t / dayMs := Int.fdiv_eq_ediv t (by decide)
  unfold dayIndex at h
  rw [hfd] at h
  unfold dayMs at h ⊢
  omega

/-- C8: the interval scheduler can publish only at its ticks, and any set of
tick indices falling in one calendar day has at most `maxPostsPerDay = 16`
elements; consequently a publish never happens in a day after that day's
count has already reached 16 (strictly fewer than 16 publishes of the day
precede any publish). The cap comes from the Publishing Cycle's own 90-minute
cadence; the queue imposes no limit. -/
theorem claim_c8 (t0 d : Int) (S : Finset ℕ)
    (h : ∀ n ∈ S, dayIndex (tickTime t0 n) = d) :
    S.card ≤ maxPostsPerDay ∧
    ∀ n ∈ S, (S.filter (fun k => k < n)).card < maxPostsPerDay := by
  have hcard : S.card ≤ maxPostsPerDay := by
    rcases Finset.eq_empty_or_nonempty S with rfl | hne
    · unfold maxPostsPerDay
      simp
    · have hmin := S.min'_mem hne
      have hsub : S ⊆ Finset.Icc (S.min' hne) (S.min' hne + 15) := by
        intro n hn
        rw [Finset.mem_Icc]
        refine ⟨Finset.min'_le S n hn, ?_⟩
        by_contra hgt
        push_neg at hgt
        have ha := dayIndex_bounds (h _ hmin)
        have hb := dayIndex_bounds (h _ hn)
        unfold tickTime intervalMs dayMs at ha hb
        omega
      calc S.card ≤ (Finset.Icc (S.min' hne) (S.min' hne + 15)).card :=
            Finset.card_le_card hsub
        _ = 16 := by rw [Nat.card_Icc]; omega
        _ ≤ maxPostsPerDay := by unfold maxPostsPerDay; omega
  refine ⟨hcard, ?_⟩
  intro n hn
  have hsub : S.filter (fun k => k < n) ⊆ S.erase n := by
    intro k hk
    rw [Finset.mem_filter] at hk
    exact Finset.mem_erase.mpr ⟨Nat.ne_of_lt hk.2, hk.1⟩
  have h1 : (S.filter (fun k => k < n)).card ≤ (S.erase n).card :=
    Finset.card_le_card hsub
  have h2 : (S.erase n).card = S.card - 1 := Finset.card_erase_of_mem hn
  have h3 : 1 ≤ S.card := Finset.card_pos.mpr ⟨n, hn⟩
  unfold maxPostsPerDay at hcard ⊢
  omega

/-- C8 witness: two consecutive ticks from epoch 0 land on day 0; the bound
and the strict prefix-count bound hold for them. -/
theorem claim_c8_witness :
    (({0, 1} : Finset ℕ).card ≤ maxPostsPerDay ∧
      ∀ n ∈ ({0, 1} : Finset ℕ),
        (({0, 1} : Finset ℕ).filter (fun k => k < n)).card < maxPostsPerDay) :=
  claim_c8 0 0 {0, 1} (by decide)

end ShiteWatch
